import Mathlib

/-!
Verification of the mask-to-annotation encoder in
`src/Python/Annotation/Mask2Annotation.py`.

A mask/grayscale image is embedded as its two dimensions `h` (rows) and
`w` (columns) together with a lookup function on coordinates; this mirrors
a NumPy array of shape `(h, w)`.  Machine `int`s are `Nat` (all quantities
here are non-negative counts and indices and no overflow-relevant width is
involved); `float(mask.sum())` is exact on these pixel counts, so `area`
is embedded as the `Nat` pixel count.  Fallible code (PNG decoding, the
`FileNotFoundError` raise) is embedded with `Option`/`Except`.
-/

-- DEFINITIONS

/-- Pixels `f r0 c, f (r0+1) c, …` — `n` consecutive rows of column `c`
of the mask `f`.  Used to build the transposed row-major flattening. -/
def colPixels (f : Nat → Nat → Bool) (c : Nat) : Nat → Nat → List Bool
  | _, 0 => []
  | r0, n + 1 => f r0 c :: colPixels f c (r0 + 1) n

/-- Columns `c0, c0+1, …` (`n` of them), each scanned top-to-bottom over
all `h` rows, concatenated. -/
def tFlattenAux (f : Nat → Nat → Bool) (h : Nat) : Nat → Nat → List Bool
  | _, 0 => []
  | c0, n + 1 => colPixels f c0 0 h ++ tFlattenAux f h (c0 + 1) n

/-- `mask.T.reshape(-1)` of `Mask2Annotation.mask_to_rle` (lines 73-76):
the `h×w` mask is transposed and flattened in row-major order, i.e. the
original mask is scanned column-by-column, top-to-bottom within each
column, left-to-right across columns. -/
def tFlatten (h w : Nat) (f : Nat → Nat → Bool) : List Bool :=
  tFlattenAux f h 0 w

/-- The `for p in pixels` loop of `mask_to_rle` (lines 78-89).  State is
`(counts, prev, count)`, started by the caller at `([], false, 0)`
(`prev = 0`, `count = 0` in the Python). -/
def rleLoop : List Bool → List Nat × Bool × Nat → List Nat × Bool × Nat
  | [], st => st
  | p :: rest, (counts, prev, count) =>
    if p = prev then rleLoop rest (counts, prev, count + 1)
    else rleLoop rest (counts ++ [count], p, 1)

/-- The full `counts` computation of `mask_to_rle` (lines 78-93): run the
loop from `([], false, 0)`, append the final `count`, and prepend a `0`
when the first pixel is foreground.  (`pixels[0]` assumes a non-empty
mask, i.e. `h, w ≥ 1`; on the empty list this total model takes the
no-prepend branch.) -/
def rleCounts (pixels : List Bool) : List Nat :=
  let st := rleLoop pixels ([], false, 0)
  let counts := st.1 ++ [st.2.2]
  if pixels.head? = some true then 0 :: counts else counts

/-- COCO-style uncompressed RLE: `{"counts": …, "size": [h, w]}`. -/
structure Rle where
  counts : List Nat
  size : Nat × Nat
deriving DecidableEq

/-- `Mask2Annotation.mask_to_rle` (lines 60-95): counts over the
transposed row-major flattening, `size` the original `(h, w)`. -/
def maskToRle (h w : Nat) (f : Nat → Nat → Bool) : Rle :=
  ⟨rleCounts (tFlatten h w f), (h, w)⟩

/-- Modelled from the spec: the standard background-first alternating RLE
decoder ("the sequence alternates runs of background and foreground
pixels … the first element always represents a (possibly zero-length)
background run").  `b` is the value of the current run, starting at
`false` (background). -/
def rleDecodeAux : List Nat → Bool → List Bool
  | [], _ => []
  | c :: rest, b => List.replicate c b ++ rleDecodeAux rest (!b)

/-- Modelled from the spec: decode a `counts` sequence back into the flat
boolean pixel sequence, first run being background. -/
def rleDecode (counts : List Nat) : List Bool :=
  rleDecodeAux counts false

/-- The coordinates `(r, c)` of the true pixels of an `h×w` mask, in the
row-major scan order of `np.where(mask > 0)` in
`Mask2Annotation.compute_bbox` (line 100): `ys` are the first components,
`xs` the second. -/
def foregroundCoords (h w : Nat) (f : Nat → Nat → Bool) : List (Nat × Nat) :=
  ((List.range h).flatMap fun r => (List.range w).map fun c => (r, c)).filter
    fun rc => f rc.1 rc.2

/-- `mask.sum()` for a 0/1 mask: the number of true pixels.  The Python
`float(mask.sum())` is exact on these counts, so `area` is a `Nat`. -/
def maskArea (h w : Nat) (f : Nat → Nat → Bool) : Nat :=
  (foregroundCoords h w f).length

/-- `Mask2Annotation.compute_bbox` (lines 98-107): `(0,0,0,0)` when no
pixel is true, otherwise `(x_min, y_min, x_max-x_min+1, y_max-y_min+1)`
over the column indices `xs` and row indices `ys` of the true pixels. -/
def computeBbox (h w : Nat) (f : Nat → Nat → Bool) : Nat × Nat × Nat × Nat :=
  match foregroundCoords h w f with
  | [] => (0, 0, 0, 0)
  | rc :: rest =>
    let xs := (rc :: rest).map Prod.snd
    let ys := (rc :: rest).map Prod.fst
    let xmin := xs.foldl min rc.2
    let xmax := xs.foldl max rc.2
    let ymin := ys.foldl min rc.1
    let ymax := ys.foldl max rc.1
    (xmin, ymin, xmax - xmin + 1, ymax - ymin + 1)

/-- COCO category record (`COCOCategory` dataclass, lines 30-34). -/
structure COCOCategory where
  id : Nat
  name : String
  supercategory : String
deriving DecidableEq

/-- `Mask2Annotation.build_categories_from_values` (lines 110-127):
`uniq = sorted(set(values))`; the binary `[0, 1]` case yields the fixed
Background/Debris pair, otherwise one category `Class{v}` with id `v + 1`
per distinct value (including `v = 0`). -/
def buildCategoriesFromValues (values : List Nat) : List COCOCategory :=
  let uniq := List.insertionSort (· ≤ ·) values.dedup
  if uniq = [0, 1] then
    [⟨1, "Background", ""⟩, ⟨2, "Debris", ""⟩]
  else
    uniq.map fun v => ⟨v + 1, "Class" ++ toString v, ""⟩

/-- `set(all_values) == {0, 1}` (line 149): every observed value is 0 or
1 and both occur. -/
abbrev BinaryVals (l : List Nat) : Prop :=
  (∀ v ∈ l, v = 0 ∨ v = 1) ∧ 0 ∈ l ∧ 1 ∈ l

/-- The `value_to_cat` mapping of `create_coco_from_masks`
(lines 148-152): `{0: 1, 1: 2}` in the binary case, otherwise
`{v: v + 1 for v in set(all_values)}`; `none` models a missing key. -/
def valueToCat (allValues : List Nat) (v : Nat) : Option Nat :=
  if BinaryVals allValues then
    if v = 0 then some 1 else if v = 1 then some 2 else none
  else if v ∈ allValues then some (v + 1) else none

/-- One input PNG: its filename and the result of decoding it to a
grayscale pixel grid (rows of values); `none` models a decode failure
(`Image.open`/`np.array` raising on a corrupt file). -/
structure PngFile where
  name : String
  decoded : Option (List (List Nat))
deriving DecidableEq

/-- Comparison used by `sorted(input_dir.glob("*.png"))` (line 131):
paths compare by name. -/
def fileLe (a b : PngFile) : Prop := a.name ≤ b.name

instance : DecidableRel fileLe :=
  fun a b => inferInstanceAs (Decidable (a.name ≤ b.name))

instance : IsTotal PngFile fileLe := ⟨fun a b => le_total a.name b.name⟩

instance : IsTrans PngFile fileLe := ⟨fun _ _ _ h1 h2 => le_trans h1 h2⟩

/-- `sorted(p for p in input_dir.glob("*.png") …)` (lines 131-133). -/
def sortByName (files : List PngFile) : List PngFile :=
  List.insertionSort fileLe files

/-- `np.unique(arr).tolist()` (lines 145, 171): the sorted list of
distinct pixel values of a decoded grid. -/
def uniqueVals (g : List (List Nat)) : List Nat :=
  List.insertionSort (· ≤ ·) g.flatten.dedup

/-- Pass 1 of `create_coco_from_masks` (lines 141-145): open every image
and collect its distinct pixel values in order; a decode failure raises,
aborting the whole pass with that image's name. -/
def collectValues : List PngFile → Except String (List Nat)
  | [] => Except.ok []
  | p :: rest =>
    match p.decoded with
    | none => Except.error p.name
    | some g =>
      match collectValues rest with
      | Except.error e => Except.error e
      | Except.ok vs => Except.ok (uniqueVals g ++ vs)

/-- `COCOLicense` dataclass (lines 13-17); the pipeline only ever emits
the placeholder `⟨0, "", ""⟩`. -/
structure COCOLicense where
  id : Nat
  name : String
  url : String
deriving DecidableEq

/-- `COCOInfo` dataclass (lines 20-27); only the empty placeholder is
emitted. -/
structure COCOInfo where
  description : String
  url : String
  version : String
  year : String
  contributor : String
  date_captured : String
deriving DecidableEq

/-- `COCOImage` dataclass (lines 37-46). -/
structure COCOImage where
  id : Nat
  width : Nat
  height : Nat
  file_name : String
  license : Nat
  flickr_url : String
  coco_url : String
  date_captured : Nat
deriving DecidableEq

/-- `COCOAnnotation` dataclass (lines 49-58): `area` is the exact pixel
count (`float(mask.sum())` is exact on it), `bbox` the four integral box
coordinates, and `attributes = {"occluded": False}` is carried as the
single boolean `occluded`. -/
structure COCOAnnotation where
  id : Nat
  image_id : Nat
  category_id : Nat
  segmentation : Rle
  area : Nat
  bbox : List Nat
  iscrowd : Nat
  occluded : Bool
deriving DecidableEq

/-- The body of the per-value loop of `create_coco_from_masks`
(lines 173-198) for one pixel value `v` of one image with pixel grid
`arrF`: `none` when the value is skipped (unmapped or background value,
empty submask `arr == v`, or degenerate bbox), otherwise the annotation
built with the current global annotation id `annId`. -/
def processValue (vcat : Nat → Option Nat) (imgId annId hD wD : Nat)
    (arrF : Nat → Nat → Nat) (v : Nat) : Option COCOAnnotation :=
  match vcat v with
  | none => none
  | some cat =>
    if v = 0 then none
    else if maskArea hD wD (fun r c => arrF r c == v) = 0 then none
    else if (computeBbox hD wD (fun r c => arrF r c == v)).2.2.1 = 0 ∨
        (computeBbox hD wD (fun r c => arrF r c == v)).2.2.2 = 0 then none
    else
      some
        { id := annId
          image_id := imgId
          category_id := cat
          segmentation := maskToRle hD wD (fun r c => arrF r c == v)
          area := maskArea hD wD (fun r c => arrF r c == v)
          bbox := [(computeBbox hD wD (fun r c => arrF r c == v)).1,
                   (computeBbox hD wD (fun r c => arrF r c == v)).2.1,
                   (computeBbox hD wD (fun r c => arrF r c == v)).2.2.1,
                   (computeBbox hD wD (fun r c => arrF r c == v)).2.2.2]
          iscrowd := 1
          occluded := false }

/-- The `for v in unique_vals` loop (lines 173-200): the emitted
annotations in order, together with the updated global annotation id
(bumped only when an annotation is emitted). -/
def processValues (vcat : Nat → Option Nat) (imgId hD wD : Nat)
    (arrF : Nat → Nat → Nat) :
    List Nat → Nat → List COCOAnnotation × Nat
  | [], annId => ([], annId)
  | v :: vs, annId =>
    match processValue vcat imgId annId hD wD arrF v with
    | none => processValues vcat imgId hD wD arrF vs annId
    | some ann =>
      let pr := processValues vcat imgId hD wD arrF vs (annId + 1)
      (ann :: pr.1, pr.2)

/-- The `for img_id, p in enumerate(png_paths, start=1)` loop
(lines 156-200) over the already-sorted file list, threading the global
annotation id across images; a decode failure raises, aborting with that
image's name. -/
def processImages (vcat : Nat → Option Nat) :
    List PngFile → Nat → Nat →
      Except String (List COCOImage × List COCOAnnotation)
  | [], _, _ => Except.ok ([], [])
  | p :: rest, imgId, annId =>
    match p.decoded with
    | none => Except.error p.name
    | some g =>
      let hD := g.length
      let wD := (g.headD []).length
      let arrF : Nat → Nat → Nat := fun r c => (g.getD r []).getD c 0
      let pr := processValues vcat imgId hD wD arrF (uniqueVals g) annId
      match processImages vcat rest (imgId + 1) pr.2 with
      | Except.error e => Except.error e
      | Except.ok irest =>
        Except.ok
          (⟨imgId, wD, hD, p.name, 0, "", "", 0⟩ :: irest.1, pr.1 ++ irest.2)

/-- The aggregated output document (lines 202-208). -/
structure CocoDoc where
  licenses : List COCOLicense
  info : COCOInfo
  categories : List COCOCategory
  images : List COCOImage
  annotations : List COCOAnnotation
deriving DecidableEq

/-- `create_coco_from_masks` (lines 130-212) applied to the sorted file
list: raise `FileNotFoundError` when there is no input, run pass 1
(category resolution over all images) then pass 2 (per-image assembly),
and aggregate the document. -/
def createFromSorted (files : List PngFile) : Except String CocoDoc :=
  if files = [] then Except.error "no images"
  else
    match collectValues files with
    | Except.error e => Except.error e
    | Except.ok allValues =>
      match processImages (valueToCat allValues) files 1 1 with
      | Except.error e => Except.error e
      | Except.ok ia =>
        Except.ok
          ⟨[⟨0, "", ""⟩], ⟨"", "", "", "", "", ""⟩,
           buildCategoriesFromValues allValues, ia.1, ia.2⟩

/-- `create_coco_from_masks`: the input PNG list is sorted by filename
(line 131) and then processed. -/
def createCocoFromMasks (files : List PngFile) : Except String CocoDoc :=
  createFromSorted (sortByName files)

/-- The consecutive ids `s, s+1, …, s+n-1` produced by a counter that
starts at `s` and is bumped once per emitted annotation. -/
def idsFrom (s : Nat) : Nat → List Nat
  | 0 => []
  | n + 1 => s :: idsFrom (s + 1) n

-- THEOREMS

theorem rleLoop_acc (l : List Bool) :
    ∀ (cs : List Nat) (p : Bool) (c : Nat),
      ∃ suf, (rleLoop l (cs, p, c)).1 = cs ++ suf := by
  induction l with
  | nil => exact fun cs p c => ⟨[], by simp [rleLoop]⟩
  | cons q rest ih =>
    intro cs p c
    by_cases hq : q = p
    · simpa [rleLoop, hq] using ih cs p (c + 1)
    · obtain ⟨suf, hsuf⟩ := ih (cs ++ [c]) q 1
      exact ⟨[c] ++ suf, by simp [rleLoop, hq, hsuf]⟩

theorem rleLoop_head_false (l : List Bool) :
    ∀ c : Nat,
      ((rleLoop l ([], false, c)).1 ++ [(rleLoop l ([], false, c)).2.2]).head? =
        some (c + (l.takeWhile (fun b => !b)).length) := by
  induction l with
  | nil => intro c; simp [rleLoop]
  | cons q rest ih =>
    intro c
    cases q with
    | false =>
      have h1 := ih (c + 1)
      simp only [rleLoop, if_pos rfl] at *
      simp only [List.takeWhile_cons] at *
      simpa [Nat.add_assoc, Nat.add_comm, Nat.add_left_comm] using h1
    | true =>
      obtain ⟨suf, hsuf⟩ := rleLoop_acc rest [c] true 1
      simp [rleLoop, List.takeWhile_cons, hsuf]

theorem rleCounts_head (pixels : List Bool) (hne : pixels ≠ []) :
    (rleCounts pixels).head? =
      some ((pixels.takeWhile (fun b => !b)).length) := by
  cases pixels with
  | nil => exact absurd rfl hne
  | cons b rest =>
    cases b with
    | false =>
      have h1 := rleLoop_head_false (false :: rest) 0
      simpa [rleCounts] using h1
    | true => simp [rleCounts, List.takeWhile_cons]

theorem tFlatten_pos (h w : Nat) (f : Nat → Nat → Bool)
    (hh : 1 ≤ h) (hw : 1 ≤ w) :
    ∃ rest, tFlatten h w f = f 0 0 :: rest := by
  cases h with
  | zero => omega
  | succ h1 =>
    cases w with
    | zero => omega
    | succ w1 =>
      exact ⟨colPixels f 0 1 h1 ++ tFlattenAux f (h1 + 1) 1 w1,
        by simp [tFlatten, tFlattenAux, colPixels]⟩

/-- C1: for the all-foreground 1×1 mask, `mask_to_rle` yields
`counts = [0, 0, 1]` — the loop's `prev = 0` initialisation already emits
a zero-length background run at the first foreground pixel and the
explicit `pixels[0] == 1` prepend adds a second — so the background-first
alternating decode of `counts` gives `[false]`, not the transposed
flattening `[true]` of the mask: the decode round-trip of the claim
fails (while `sum(counts) = h*w` and the `size` field still hold). -/
theorem c1_rle_roundtrip_bug :
    maskToRle 1 1 (fun _ _ => true) = ⟨[0, 0, 1], (1, 1)⟩ ∧
    rleDecode (maskToRle 1 1 (fun _ _ => true)).counts = [false] ∧
    tFlatten 1 1 (fun _ _ => true) = [true] ∧
    rleDecode (maskToRle 1 1 (fun _ _ => true)).counts ≠
      tFlatten 1 1 (fun _ _ => true) ∧
    (maskToRle 1 1 (fun _ _ => true)).counts.sum = 1 * 1 := by
  refine ⟨rfl, rfl, rfl, ?_, rfl⟩
  decide

/-- C2: for every mask with `h, w ≥ 1`, the first element of `counts` is
the length of the leading background run of the transposed-flattened
sequence (in particular it is `0` — the prepended zero-length run —
whenever the first flattened pixel is foreground). -/
theorem c2_counts_head_background (h w : Nat) (f : Nat → Nat → Bool)
    (hh : 1 ≤ h) (hw : 1 ≤ w) :
    (maskToRle h w f).counts.head? =
      some ((tFlatten h w f).takeWhile (fun b => !b)).length ∧
    ((tFlatten h w f).head? = some true →
      (maskToRle h w f).counts.head? = some 0) := by
  obtain ⟨rest, hrest⟩ := tFlatten_pos h w f hh hw
  have hne : tFlatten h w f ≠ [] := by rw [hrest]; simp
  refine ⟨by simpa [maskToRle] using rleCounts_head _ hne, ?_⟩
  intro h0
  have hf : f 0 0 = true := by
    rw [hrest] at h0
    simpa using h0
  have h1 := rleCounts_head _ hne
  have h2 : (tFlatten h w f).takeWhile (fun b => !b) = [] := by
    rw [hrest, hf]
    simp [List.takeWhile_cons]
  rw [h2] at h1
  simpa [maskToRle] using h1

/-- C2 witness: the all-false and all-true 1×1 masks. -/
theorem c2_counts_head_background_witness :
    (maskToRle 1 1 (fun _ _ => false)).counts.head? =
      some ((tFlatten 1 1 (fun _ _ => false)).takeWhile (fun b => !b)).length ∧
    (maskToRle 1 1 (fun _ _ => true)).counts.head? = some 0 :=
  ⟨(c2_counts_head_background 1 1 (fun _ _ => false) (by decide) (by decide)).1,
   (c2_counts_head_background 1 1 (fun _ _ => true) (by decide) (by decide)).2
     (by decide)⟩

theorem mem_foregroundCoords {h w : Nat} {f : Nat → Nat → Bool} {r c : Nat} :
    (r, c) ∈ foregroundCoords h w f ↔ r < h ∧ c < w ∧ f r c = true := by
  simp [foregroundCoords, List.mem_filter, List.mem_flatMap, List.mem_range,
    and_assoc]

theorem foregroundCoords_nil (h w : Nat) (f : Nat → Nat → Bool)
    (hall : ∀ r c, r < h → c < w → f r c = false) :
    foregroundCoords h w f = [] := by
  unfold foregroundCoords
  rw [List.filter_eq_nil_iff]
  rintro ⟨r, c⟩ hm
  simp only [List.mem_flatMap, List.mem_map, List.mem_range,
    Prod.mk.injEq] at hm
  obtain ⟨r1, hr1, c1, hc1, rfl, rfl⟩ := hm
  simp [hall r1 c1 hr1 hc1]

theorem foldl_min_le_init (l : List Nat) : ∀ a : Nat, l.foldl min a ≤ a := by
  induction l with
  | nil => intro a; exact Nat.le_refl a
  | cons b t ih =>
    intro a
    exact Nat.le_trans (ih (min a b)) (min_le_left a b)

theorem foldl_min_le_mem (l : List Nat) :
    ∀ (a x : Nat), x ∈ l → l.foldl min a ≤ x := by
  induction l with
  | nil => intro a x hx; simp at hx
  | cons b t ih =>
    intro a x hx
    rcases List.mem_cons.mp hx with h1 | h1
    · subst h1
      exact Nat.le_trans (foldl_min_le_init t (min a x)) (min_le_right a x)
    · exact ih (min a b) x h1

theorem foldl_min_choice (l : List Nat) :
    ∀ a : Nat, l.foldl min a = a ∨ l.foldl min a ∈ l := by
  induction l with
  | nil => intro a; exact Or.inl rfl
  | cons b t ih =>
    intro a
    show List.foldl min (min a b) t = a ∨
      List.foldl min (min a b) t ∈ b :: t
    rcases ih (min a b) with h1 | h1
    · by_cases hab : a ≤ b
      · have hmin : min a b = a := by rw [min_def, if_pos hab]
        exact Or.inl (h1.trans hmin)
      · have hmin : min a b = b := by rw [min_def, if_neg hab]
        refine Or.inr ?_
        rw [h1, hmin]
        exact List.mem_cons_self b t
    · exact Or.inr (List.mem_cons_of_mem b h1)

theorem foldl_max_init_le (l : List Nat) : ∀ a : Nat, a ≤ l.foldl max a := by
  induction l with
  | nil => intro a; exact Nat.le_refl a
  | cons b t ih =>
    intro a
    exact Nat.le_trans (le_max_left a b) (ih (max a b))

theorem foldl_max_mem_le (l : List Nat) :
    ∀ (a x : Nat), x ∈ l → x ≤ l.foldl max a := by
  induction l with
  | nil => intro a x hx; simp at hx
  | cons b t ih =>
    intro a x hx
    rcases List.mem_cons.mp hx with h1 | h1
    · subst h1
      exact Nat.le_trans (le_max_right a x) (foldl_max_init_le t (max a x))
    · exact ih (max a b) x h1

theorem foldl_max_choice (l : List Nat) :
    ∀ a : Nat, l.foldl max a = a ∨ l.foldl max a ∈ l := by
  induction l with
  | nil => intro a; exact Or.inl rfl
  | cons b t ih =>
    intro a
    show List.foldl max (max a b) t = a ∨
      List.foldl max (max a b) t ∈ b :: t
    rcases ih (max a b) with h1 | h1
    · by_cases hab : a ≤ b
      · have hmax : max a b = b := by rw [max_def, if_pos hab]
        refine Or.inr ?_
        rw [h1, hmax]
        exact List.mem_cons_self b t
      · have hmax : max a b = a := by rw [max_def, if_neg hab]
        exact Or.inl (h1.trans hmax)
    · exact Or.inr (List.mem_cons_of_mem b h1)

/-- C3: `compute_bbox` returns `(0,0,0,0)` on a mask with no true pixel;
on a mask with at least one true pixel it returns
`(x_min, y_min, width, height) : Nat` tuples where `x_min`/`y_min` are
the minimum column/row indices of true pixels, `x_min + width - 1` and
`y_min + height - 1` are the corresponding maxima — so `width`/`height`
are the inclusive spans `max - min + 1` — and `width, height ≥ 1`. -/
theorem c3_compute_bbox (h w : Nat) (f : Nat → Nat → Bool) :
    ((∀ r c, r < h → c < w → f r c = false) →
      computeBbox h w f = (0, 0, 0, 0)) ∧
    (∀ r0 c0, r0 < h → c0 < w → f r0 c0 = true →
      (∀ r c, r < h → c < w → f r c = true →
        (computeBbox h w f).1 ≤ c ∧
        c ≤ (computeBbox h w f).1 + (computeBbox h w f).2.2.1 - 1 ∧
        (computeBbox h w f).2.1 ≤ r ∧
        r ≤ (computeBbox h w f).2.1 + (computeBbox h w f).2.2.2 - 1) ∧
      (∃ r c, r < h ∧ c < w ∧ f r c = true ∧ c = (computeBbox h w f).1) ∧
      (∃ r c, r < h ∧ c < w ∧ f r c = true ∧
        c = (computeBbox h w f).1 + (computeBbox h w f).2.2.1 - 1) ∧
      (∃ r c, r < h ∧ c < w ∧ f r c = true ∧ r = (computeBbox h w f).2.1) ∧
      (∃ r c, r < h ∧ c < w ∧ f r c = true ∧
        r = (computeBbox h w f).2.1 + (computeBbox h w f).2.2.2 - 1) ∧
      1 ≤ (computeBbox h w f).2.2.1 ∧ 1 ≤ (computeBbox h w f).2.2.2) := by
  constructor
  · intro hall
    simp [computeBbox, foregroundCoords_nil h w f hall]
  · intro r0 c0 hr0 hc0 hf0
    have hmem0 : (r0, c0) ∈ foregroundCoords h w f :=
      mem_foregroundCoords.mpr ⟨hr0, hc0, hf0⟩
    cases hFC : foregroundCoords h w f with
    | nil =>
      rw [hFC] at hmem0
      simp at hmem0
    | cons rc rest =>
      have hmem : ∀ r c : Nat,
          (r, c) ∈ rc :: rest ↔ r < h ∧ c < w ∧ f r c = true := by
        intro r c
        rw [← hFC]
        exact mem_foregroundCoords
      have hbb : computeBbox h w f =
          (((rc :: rest).map Prod.snd).foldl min rc.2,
           ((rc :: rest).map Prod.fst).foldl min rc.1,
           ((rc :: rest).map Prod.snd).foldl max rc.2 -
             ((rc :: rest).map Prod.snd).foldl min rc.2 + 1,
           ((rc :: rest).map Prod.fst).foldl max rc.1 -
             ((rc :: rest).map Prod.fst).foldl min rc.1 + 1) := by
        simp [computeBbox, hFC]
      set xs := (rc :: rest).map Prod.snd with hxs
      set ys := (rc :: rest).map Prod.fst with hys
      have hcol_mem : ∀ r c : Nat, r < h → c < w → f r c = true → c ∈ xs := by
        intro r c hr hc hf1
        exact List.mem_map.mpr ⟨(r, c), (hmem r c).mpr ⟨hr, hc, hf1⟩, rfl⟩
      have hrow_mem : ∀ r c : Nat, r < h → c < w → f r c = true → r ∈ ys := by
        intro r c hr hc hf1
        exact List.mem_map.mpr ⟨(r, c), (hmem r c).mpr ⟨hr, hc, hf1⟩, rfl⟩
      have hx_head : rc.2 ∈ xs :=
        List.mem_map.mpr ⟨rc, List.mem_cons_self rc rest, rfl⟩
      have hy_head : rc.1 ∈ ys :=
        List.mem_map.mpr ⟨rc, List.mem_cons_self rc rest, rfl⟩
      have hxm_mem : xs.foldl min rc.2 ∈ xs := by
        rcases foldl_min_choice xs rc.2 with h1 | h1
        · rw [h1]; exact hx_head
        · exact h1
      have hxM_mem : xs.foldl max rc.2 ∈ xs := by
        rcases foldl_max_choice xs rc.2 with h1 | h1
        · rw [h1]; exact hx_head
        · exact h1
      have hym_mem : ys.foldl min rc.1 ∈ ys := by
        rcases foldl_min_choice ys rc.1 with h1 | h1
        · rw [h1]; exact hy_head
        · exact h1
      have hyM_mem : ys.foldl max rc.1 ∈ ys := by
        rcases foldl_max_choice ys rc.1 with h1 | h1
        · rw [h1]; exact hy_head
        · exact h1
      have hxmM : xs.foldl min rc.2 ≤ xs.foldl max rc.2 :=
        Nat.le_trans (foldl_min_le_init xs rc.2) (foldl_max_init_le xs rc.2)
      have hymM : ys.foldl min rc.1 ≤ ys.foldl max rc.1 :=
        Nat.le_trans (foldl_min_le_init ys rc.1) (foldl_max_init_le ys rc.1)
      have hpix_of_col : ∀ x : Nat, x ∈ xs →
          ∃ r c, r < h ∧ c < w ∧ f r c = true ∧ c = x := by
        intro x hx
        obtain ⟨p, hp, hp2⟩ := List.mem_map.mp hx
        have hp3 := (hmem p.1 p.2).mp (by rw [Prod.mk.eta]; exact hp)
        exact ⟨p.1, p.2, hp3.1, hp3.2.1, hp3.2.2, hp2⟩
      have hpix_of_row : ∀ y : Nat, y ∈ ys →
          ∃ r c, r < h ∧ c < w ∧ f r c = true ∧ r = y := by
        intro y hy
        obtain ⟨p, hp, hp2⟩ := List.mem_map.mp hy
        have hp3 := (hmem p.1 p.2).mp (by rw [Prod.mk.eta]; exact hp)
        exact ⟨p.1, p.2, hp3.1, hp3.2.1, hp3.2.2, hp2⟩
      rw [hbb]
      refine ⟨?_, ?_, ?_, ?_, ?_, ?_, ?_⟩
      · intro r c hr hc hf1
        have h1 := foldl_min_le_mem xs rc.2 c (hcol_mem r c hr hc hf1)
        have h2 := foldl_max_mem_le xs rc.2 c (hcol_mem r c hr hc hf1)
        have h3 := foldl_min_le_mem ys rc.1 r (hrow_mem r c hr hc hf1)
        have h4 := foldl_max_mem_le ys rc.1 r (hrow_mem r c hr hc hf1)
        refine ⟨h1, ?_, h3, ?_⟩ <;> dsimp only <;> omega
      · exact hpix_of_col _ hxm_mem
      · obtain ⟨r, c, hr, hc, hf1, hcx⟩ := hpix_of_col _ hxM_mem
        exact ⟨r, c, hr, hc, hf1, by dsimp only; omega⟩
      · exact hpix_of_row _ hym_mem
      · obtain ⟨r, c, hr, hc, hf1, hry⟩ := hpix_of_row _ hyM_mem
        exact ⟨r, c, hr, hc, hf1, by dsimp only; omega⟩
      · exact Nat.le_add_left 1 _
      · exact Nat.le_add_left 1 _

/-- C3 witness: the all-false 2×2 mask gives `(0,0,0,0)`; the single true
pixel at row 2, column 3 (in a 3×4 mask) gives `(3, 2, 1, 1)`. -/
theorem c3_compute_bbox_witness :
    computeBbox 2 2 (fun _ _ => false) = (0, 0, 0, 0) ∧
    computeBbox 3 4 (fun r c => r == 2 && c == 3) = (3, 2, 1, 1) :=
  ⟨(c3_compute_bbox 2 2 (fun _ _ => false)).1 (fun _ _ _ _ => rfl),
   by decide⟩

theorem maskArea_pos_coords {hD wD : Nat} {f : Nat → Nat → Bool}
    (hpos : 0 < maskArea hD wD f) :
    ∃ rc rest, foregroundCoords hD wD f = rc :: rest := by
  unfold maskArea at hpos
  cases hFC : foregroundCoords hD wD f with
  | nil =>
    rw [hFC] at hpos
    simp at hpos
  | cons rc rest => exact ⟨rc, rest, rfl⟩

theorem computeBbox_pos (hD wD : Nat) (f : Nat → Nat → Bool)
    (hpos : 0 < maskArea hD wD f) :
    1 ≤ (computeBbox hD wD f).2.2.1 ∧ 1 ≤ (computeBbox hD wD f).2.2.2 := by
  obtain ⟨rc, rest, hFC⟩ := maskArea_pos_coords hpos
  constructor <;> simp [computeBbox, hFC]

/-- C10: a mask with at least one true pixel always has bounding-box
width and height at least 1, so in the assembler the degenerate-bbox skip
(`bw == 0 or bh == 0`, lines 185-186) is unreachable once `area > 0`:
whenever the value is mapped, non-zero and its submask non-empty, an
annotation is emitted. -/
theorem c10_area_pos_bbox_nondegenerate (hD wD : Nat) :
    (∀ f : Nat → Nat → Bool, 0 < maskArea hD wD f →
      1 ≤ (computeBbox hD wD f).2.2.1 ∧ 1 ≤ (computeBbox hD wD f).2.2.2) ∧
    (∀ (vcat : Nat → Option Nat) (imgId annId : Nat)
        (arrF : Nat → Nat → Nat) (v cat : Nat),
      vcat v = some cat → v ≠ 0 →
      0 < maskArea hD wD (fun r c => arrF r c == v) →
      ∃ a, processValue vcat imgId annId hD wD arrF v = some a) := by
  constructor
  · exact fun f => computeBbox_pos hD wD f
  · intro vcat imgId annId arrF v cat hv hv0 hpos
    obtain ⟨hb1, hb2⟩ := computeBbox_pos hD wD _ hpos
    have hnone : processValue vcat imgId annId hD wD arrF v ≠ none := by
      simp only [processValue, hv]
      rw [if_neg hv0, if_neg (Nat.pos_iff_ne_zero.mp hpos),
        if_neg (by rintro (h0 | h0) <;> omega)]
      simp
    exact Option.ne_none_iff_exists'.mp hnone

/-- C10 witness: the 1×1 all-true mask, and value 1 of the all-ones 1×1
grid under the binary mapping. -/
theorem c10_area_pos_bbox_nondegenerate_witness :
    (1 ≤ (computeBbox 1 1 (fun _ _ => true)).2.2.1 ∧
      1 ≤ (computeBbox 1 1 (fun _ _ => true)).2.2.2) ∧
    ∃ a, processValue (fun _ => some 2) 1 5 1 1 (fun _ _ => 1) 1 = some a :=
  ⟨(c10_area_pos_bbox_nondegenerate 1 1).1 (fun _ _ => true) (by decide),
   (c10_area_pos_bbox_nondegenerate 1 1).2 (fun _ => some 2) 1 5
     (fun _ _ => 1) 1 2 rfl (by decide) (by decide)⟩

theorem processValue_none (vcat : Nat → Option Nat)
    (imgId annId hD wD : Nat) (arrF : Nat → Nat → Nat) (v : Nat)
    (hdeg : maskArea hD wD (fun r c => arrF r c == v) = 0 ∨
      (computeBbox hD wD (fun r c => arrF r c == v)).2.2.1 = 0 ∨
      (computeBbox hD wD (fun r c => arrF r c == v)).2.2.2 = 0) :
    processValue vcat imgId annId hD wD arrF v = none := by
  rcases hdeg with h1 | h1 | h1 <;>
    cases hv : vcat v <;>
      simp [processValue, hv, h1]

/-- C7: when the submask for a value has zero true pixels, or its
bounding box has zero width or height, the assembler emits no annotation
for that value, does not advance the global annotation-id counter, and
processes the remaining values exactly as if the value were absent (and,
the embedding being total, raises no fault). -/
theorem c7_skip_degenerate (vcat : Nat → Option Nat) (imgId hD wD : Nat)
    (arrF : Nat → Nat → Nat) (v : Nat) (vs : List Nat) (annId : Nat)
    (hdeg : maskArea hD wD (fun r c => arrF r c == v) = 0 ∨
      (computeBbox hD wD (fun r c => arrF r c == v)).2.2.1 = 0 ∨
      (computeBbox hD wD (fun r c => arrF r c == v)).2.2.2 = 0) :
    processValues vcat imgId hD wD arrF (v :: vs) annId =
      processValues vcat imgId hD wD arrF vs annId := by
  have h1 := processValue_none vcat imgId annId hD wD arrF v hdeg
  simp [processValues, h1]

/-- C7 witness: value 3 over an all-zero 1×1 grid (empty submask). -/
theorem c7_skip_degenerate_witness :
    processValues (fun _ => some 1) 1 1 1 (fun _ _ => 0) [3] 1 =
      processValues (fun _ => some 1) 1 1 1 (fun _ _ => 0) [] 1 :=
  c7_skip_degenerate (fun _ => some 1) 1 1 1 (fun _ _ => 0) 3 [] 1
    (Or.inl (by decide))

theorem sortedDedup_canonical (l : List Nat) (target : List Nat)
    (hsorted : target.Sorted (· ≤ ·)) (hnd : target.Nodup)
    (hm : ∀ v, v ∈ l ↔ v ∈ target) :
    List.insertionSort (· ≤ ·) l.dedup = target := by
  refine List.eq_of_perm_of_sorted ?_ (List.sorted_insertionSort _ _) hsorted
  refine (List.perm_insertionSort _ _).trans ?_
  exact (List.perm_ext_iff_of_nodup (List.nodup_dedup l) hnd).mpr
    fun v => by rw [List.mem_dedup]; exact hm v

theorem buildCategories_mem_congr (l1 l2 : List Nat)
    (hm : ∀ v, v ∈ l1 ↔ v ∈ l2) :
    buildCategoriesFromValues l1 = buildCategoriesFromValues l2 := by
  have hu : List.insertionSort (· ≤ ·) l1.dedup =
      List.insertionSort (· ≤ ·) l2.dedup := by
    refine sortedDedup_canonical l1 _ (List.sorted_insertionSort _ _) ?_ ?_
    · exact ((List.perm_insertionSort _ _).nodup_iff).mpr (List.nodup_dedup l2)
    · intro v
      simp only [List.mem_insertionSort, List.mem_dedup]
      exact hm v
  simp only [buildCategoriesFromValues, hu]

theorem valueToCat_mem_congr (l1 l2 : List Nat)
    (hm : ∀ v, v ∈ l1 ↔ v ∈ l2) :
    ∀ v, valueToCat l1 v = valueToCat l2 v := by
  intro v
  have hb : BinaryVals l1 ↔ BinaryVals l2 := by
    constructor
    · rintro ⟨ha, h0, h1⟩
      exact ⟨fun x hx => ha x ((hm x).mpr hx), (hm 0).mp h0, (hm 1).mp h1⟩
    · rintro ⟨ha, h0, h1⟩
      exact ⟨fun x hx => ha x ((hm x).mp hx), (hm 0).mpr h0, (hm 1).mpr h1⟩
  unfold valueToCat
  by_cases h1 : BinaryVals l1
  · rw [if_pos h1, if_pos (hb.mp h1)]
  · rw [if_neg h1, if_neg fun hc => h1 (hb.mpr hc)]
    by_cases hv : v ∈ l1
    · rw [if_pos hv, if_pos ((hm v).mp hv)]
    · rw [if_neg hv, if_neg fun hc => hv ((hm v).mpr hc)]

/-- C4: whenever the distinct pixel values observed across the dataset
are exactly `{0, 1}`, category resolution emits exactly the two fixed
categories `⟨1, Background⟩` and `⟨2, Debris⟩` and the value-to-category
mapping sends 0 to 1, 1 to 2 (and nothing else is mapped); moreover both
the categories and the mapping depend only on the observed value set,
not on the order (or multiplicity) in which values were collected. -/
theorem c4_binary_categories (values : List Nat)
    (hv : ∀ v, v ∈ values ↔ (v = 0 ∨ v = 1)) :
    buildCategoriesFromValues values =
      [⟨1, "Background", ""⟩, ⟨2, "Debris", ""⟩] ∧
    valueToCat values 0 = some 1 ∧ valueToCat values 1 = some 2 ∧
    (∀ v, v ≠ 0 → v ≠ 1 → valueToCat values v = none) ∧
    (∀ values2 : List Nat, (∀ v, v ∈ values2 ↔ v ∈ values) →
      buildCategoriesFromValues values2 = buildCategoriesFromValues values ∧
      ∀ v, valueToCat values2 v = valueToCat values v) := by
  have huniq : List.insertionSort (· ≤ ·) values.dedup = [0, 1] :=
    sortedDedup_canonical values [0, 1] (by decide) (by decide)
      fun v => by rw [hv v]; simp
  have hbin : BinaryVals values :=
    ⟨fun v hvv => (hv v).mp hvv, (hv 0).mpr (Or.inl rfl),
      (hv 1).mpr (Or.inr rfl)⟩
  refine ⟨?_, ?_, ?_, ?_, ?_⟩
  · simp only [buildCategoriesFromValues, huniq]
    rfl
  · unfold valueToCat
    rw [if_pos hbin]
    rfl
  · unfold valueToCat
    rw [if_pos hbin]
    rfl
  · intro v h0 h1
    unfold valueToCat
    rw [if_pos hbin, if_neg h0, if_neg h1]
  · intro values2 hm2
    exact ⟨buildCategories_mem_congr values2 values hm2,
      valueToCat_mem_congr values2 values hm2⟩

/-- C4 witness: the dataset value lists `[0, 1]` and its reordering
`[1, 0]`. -/
theorem c4_binary_categories_witness :
    buildCategoriesFromValues [0, 1] =
      [⟨1, "Background", ""⟩, ⟨2, "Debris", ""⟩] ∧
    valueToCat [0, 1] 0 = some 1 ∧ valueToCat [0, 1] 1 = some 2 ∧
    buildCategoriesFromValues [1, 0] = buildCategoriesFromValues [0, 1] := by
  have h := c4_binary_categories [0, 1] fun v => by simp
  exact ⟨h.1, h.2.1, h.2.2.1, (h.2.2.2.2 [1, 0] fun v => by simp; tauto).1⟩

/-- C5 counterexample: on the value set `{0, 2, 5}` the emitted category
ids are `[1, 3, 6]`, not `[3, 6]` — a category (id 1, `Class0`) is also
emitted for value 0, contrary to the claim. -/
theorem c5_counterexample :
    (buildCategoriesFromValues [0, 2, 5]).map COCOCategory.id ≠ [3, 6] := by
  decide

/-- C5 amended: for an observed value set `{0, 2, 5}` category resolution
emits the categories with ids `{1, 3, 6}` (id `v + 1` for every distinct
value, including value 0, which gets id 1 and name `Class0`), and the
mapping sends 0 to 1, 2 to 3 and 5 to 6. -/
theorem c5_amended_categories (values : List Nat)
    (hv : ∀ v, v ∈ values ↔ (v = 0 ∨ v = 2 ∨ v = 5)) :
    buildCategoriesFromValues values =
      [⟨1, "Class0", ""⟩, ⟨3, "Class2", ""⟩, ⟨6, "Class5", ""⟩] ∧
    valueToCat values 0 = some 1 ∧ valueToCat values 2 = some 3 ∧
    valueToCat values 5 = some 6 := by
  have huniq : List.insertionSort (· ≤ ·) values.dedup = [0, 2, 5] :=
    sortedDedup_canonical values [0, 2, 5] (by decide) (by decide)
      fun v => by rw [hv v]; simp
  have hnotbin : ¬ BinaryVals values := by
    rintro ⟨ha, h0, h1⟩
    rcases (hv 1).mp h1 with h2 | h2 | h2 <;> omega
  refine ⟨?_, ?_, ?_, ?_⟩
  · simp only [buildCategoriesFromValues, huniq]
    decide
  · unfold valueToCat
    rw [if_neg hnotbin, if_pos ((hv 0).mpr (Or.inl rfl))]
  · unfold valueToCat
    rw [if_neg hnotbin, if_pos ((hv 2).mpr (Or.inr (Or.inl rfl)))]
  · unfold valueToCat
    rw [if_neg hnotbin, if_pos ((hv 5).mpr (Or.inr (Or.inr rfl)))]

/-- C5 amended witness: the value list `[0, 2, 5]` itself. -/
theorem c5_amended_categories_witness :
    buildCategoriesFromValues [0, 2, 5] =
      [⟨1, "Class0", ""⟩, ⟨3, "Class2", ""⟩, ⟨6, "Class5", ""⟩] ∧
    valueToCat [0, 2, 5] 0 = some 1 ∧ valueToCat [0, 2, 5] 2 = some 3 ∧
    valueToCat [0, 2, 5] 5 = some 6 :=
  c5_amended_categories [0, 2, 5] fun v => by simp

theorem processValue_id (vcat : Nat → Option Nat)
    (imgId annId hD wD : Nat) (arrF : Nat → Nat → Nat) (v : Nat)
    (a : COCOAnnotation)
    (ha : processValue vcat imgId annId hD wD arrF v = some a) :
    a.id = annId := by
  unfold processValue at ha
  split at ha
  · simp at ha
  · split at ha
    · simp at ha
    · split at ha
      · simp at ha
      · split at ha
        · simp at ha
        · have h2 := Option.some.inj ha
          subst h2
          rfl

theorem idsFrom_append (s m n : Nat) :
    idsFrom s (m + n) = idsFrom s m ++ idsFrom (s + m) n := by
  induction m generalizing s with
  | zero => simp [idsFrom]
  | succ m ih =>
    have h1 : m + 1 + n = (m + n) + 1 := by omega
    rw [h1]
    show s :: idsFrom (s + 1) (m + n) =
      (s :: idsFrom (s + 1) m) ++ idsFrom (s + (m + 1)) n
    rw [ih (s + 1)]
    have h2 : s + 1 + m = s + (m + 1) := by omega
    rw [h2]
    simp

theorem mem_idsFrom (x : Nat) : ∀ (s n : Nat), x ∈ idsFrom s n → s ≤ x := by
  intro s n
  induction n generalizing s with
  | zero => intro hx; simp [idsFrom] at hx
  | succ n ih =>
    intro hx
    simp only [idsFrom] at hx
    rcases List.mem_cons.mp hx with h1 | h1
    · exact Nat.le_of_eq h1.symm
    · exact Nat.le_trans (Nat.le_succ s) (ih (s + 1) h1)

theorem pairwise_idsFrom : ∀ (s n : Nat), (idsFrom s n).Pairwise (· < ·) := by
  intro s n
  induction n generalizing s with
  | zero => simp [idsFrom]
  | succ n ih =>
    simp only [idsFrom]
    refine List.Pairwise.cons ?_ (ih (s + 1))
    intro x hx
    have h1 := mem_idsFrom x (s + 1) n hx
    omega

theorem processValues_spec (vcat : Nat → Option Nat) (imgId hD wD : Nat)
    (arrF : Nat → Nat → Nat) :
    ∀ (vs : List Nat) (annId : Nat),
      (processValues vcat imgId hD wD arrF vs annId).2 =
        annId + (processValues vcat imgId hD wD arrF vs annId).1.length ∧
      (processValues vcat imgId hD wD arrF vs annId).1.map (fun a => a.id) =
        idsFrom annId (processValues vcat imgId hD wD arrF vs annId).1.length := by
  intro vs
  induction vs with
  | nil => intro annId; simp [processValues, idsFrom]
  | cons v vs ih =>
    intro annId
    cases hpv : processValue vcat imgId annId hD wD arrF v with
    | none => simpa [processValues, hpv] using ih annId
    | some ann =>
      obtain ⟨ih1, ih2⟩ := ih (annId + 1)
      have hid := processValue_id vcat imgId annId hD wD arrF v ann hpv
      constructor
      · simp only [processValues, hpv, List.length_cons]
        omega
      · simp only [processValues, hpv, List.map_cons, List.length_cons, idsFrom]
        rw [hid, ih2]

theorem processImages_ids (vcat : Nat → Option Nat) :
    ∀ (files : List PngFile) (imgId annId : Nat)
      (ia : List COCOImage × List COCOAnnotation),
      processImages vcat files imgId annId = Except.ok ia →
      ia.2.map (fun a => a.id) = idsFrom annId ia.2.length := by
  intro files
  induction files with
  | nil =>
    intro imgId annId ia hok
    simp only [processImages] at hok
    obtain rfl := Except.ok.inj hok
    simp [idsFrom]
  | cons p rest ih =>
    intro imgId annId ia hok
    cases hd : p.decoded with
    | none =>
      simp only [processImages, hd] at hok
      exact absurd hok (by simp)
    | some g =>
      simp only [processImages, hd] at hok
      cases hrec : processImages vcat rest (imgId + 1)
          (processValues vcat imgId g.length (g.headD []).length
            (fun r c => (g.getD r []).getD c 0) (uniqueVals g) annId).2 with
      | error e =>
        simp only [hrec] at hok
        exact absurd hok (by simp)
      | ok irest =>
        simp only [hrec] at hok
        obtain rfl := Except.ok.inj hok
        dsimp only
        have hrec_ids := ih (imgId + 1)
          (processValues vcat imgId g.length (g.headD []).length
            (fun r c => (g.getD r []).getD c 0) (uniqueVals g) annId).2
          irest hrec
        have hpr := processValues_spec vcat imgId g.length
          (g.headD []).length (fun r c => (g.getD r []).getD c 0)
          (uniqueVals g) annId
        rw [List.map_append, hpr.2, hrec_ids, hpr.1, List.length_append]
        exact (idsFrom_append annId _ _).symm

/-- C6: in every successfully produced document, annotation ids are
exactly the consecutive integers `1, 2, …` in emission order — allocated
from a single counter starting at 1 that spans all images and values —
so every id is positive and each emitted annotation's id is strictly
greater than every previously emitted one (never reused, never reset per
image). -/
theorem c6_annotation_ids (files : List PngFile) (doc : CocoDoc)
    (hok : createCocoFromMasks files = Except.ok doc) :
    doc.annotations.map (fun a => a.id) = idsFrom 1 doc.annotations.length ∧
    (∀ a ∈ doc.annotations, 1 ≤ a.id) ∧
    doc.annotations.Pairwise (fun a b => a.id < b.id) := by
  unfold createCocoFromMasks createFromSorted at hok
  by_cases hnil : sortByName files = []
  · rw [if_pos hnil] at hok
    exact absurd hok (by simp)
  · rw [if_neg hnil] at hok
    cases hcv : collectValues (sortByName files) with
    | error e =>
      simp only [hcv] at hok
      exact absurd hok (by simp)
    | ok allValues =>
      simp only [hcv] at hok
      cases hpi : processImages (valueToCat allValues) (sortByName files) 1 1 with
      | error e =>
        simp only [hpi] at hok
        exact absurd hok (by simp)
      | ok ia =>
        simp only [hpi] at hok
        obtain rfl := Except.ok.inj hok
        have hids := processImages_ids (valueToCat allValues)
          (sortByName files) 1 1 ia hpi
        refine ⟨hids, ?_, ?_⟩
        · intro a ha
          have h1 : a.id ∈ idsFrom 1 ia.2.length := by
            rw [← hids]
            exact List.mem_map_of_mem _ ha
          exact mem_idsFrom a.id 1 ia.2.length h1
        · have hp := pairwise_idsFrom 1 ia.2.length
          rw [← hids] at hp
          exact List.pairwise_map.mp hp

/-- C6 witness: a one-image dataset producing one annotation, whose id
list is exactly `idsFrom 1 1 = [1]`. -/
theorem c6_annotation_ids_witness :
    createCocoFromMasks [⟨"a.png", some [[0, 1], [1, 0]]⟩] =
      Except.ok
        ⟨[⟨0, "", ""⟩], ⟨"", "", "", "", "", ""⟩,
         [⟨1, "Background", ""⟩, ⟨2, "Debris", ""⟩],
         [⟨1, 2, 2, "a.png", 0, "", "", 0⟩],
         [⟨1, 1, 2, ⟨[1, 2, 1], (2, 2)⟩, 2, [0, 0, 2, 2], 1, false⟩]⟩ ∧
    ([⟨1, 1, 2, ⟨[1, 2, 1], (2, 2)⟩, 2, [0, 0, 2, 2], 1, false⟩] :
        List COCOAnnotation).map (fun a => a.id) = idsFrom 1 1 := by
  have hok : createCocoFromMasks [⟨"a.png", some [[0, 1], [1, 0]]⟩] =
      Except.ok
        ⟨[⟨0, "", ""⟩], ⟨"", "", "", "", "", ""⟩,
         [⟨1, "Background", ""⟩, ⟨2, "Debris", ""⟩],
         [⟨1, 2, 2, "a.png", 0, "", "", 0⟩],
         [⟨1, 1, 2, ⟨[1, 2, 1], (2, 2)⟩, 2, [0, 0, 2, 2], 1, false⟩]⟩ := by
    rfl
  exact ⟨hok, (c6_annotation_ids _ _ hok).1⟩

theorem collectValues_error (files : List PngFile)
    (hbad : ∃ p ∈ files, p.decoded = none) :
    ∃ e, collectValues files = Except.error e := by
  induction files with
  | nil => simp at hbad
  | cons p rest ih =>
    cases hd : p.decoded with
    | none => exact ⟨p.name, by simp [collectValues, hd]⟩
    | some g =>
      obtain ⟨q, hq, hqd⟩ := hbad
      rcases List.mem_cons.mp hq with h1 | h1
      · subst h1
        rw [hd] at hqd
        exact absurd hqd (by simp)
      · obtain ⟨e, he⟩ := ih ⟨q, h1, hqd⟩
        exact ⟨e, by simp [collectValues, hd, he]⟩

/-- C8 counterexample: a batch of one good image (`a.png`, which alone
would yield a document — see the C6 witness) and one undecodable image
(`b.png`) — the whole run aborts with an error: no document, hence no
annotation for the good image, is produced, so one bad image does abort
the whole run and does affect the other images' output. -/
theorem c8_counterexample :
    (createCocoFromMasks
        [⟨"a.png", some [[0, 1], [1, 0]]⟩, ⟨"b.png", none⟩]).isOk =
      false := by
  have hbad : ∃ p ∈ sortByName
      [⟨"a.png", some [[0, 1], [1, 0]]⟩, ⟨"b.png", none⟩],
      p.decoded = none := by
    refine ⟨⟨"b.png", none⟩, ?_, rfl⟩
    simp only [sortByName, List.mem_insertionSort]
    simp
  obtain ⟨e, he⟩ := collectValues_error _ hbad
  have hne : sortByName
      [⟨"a.png", some [[0, 1], [1, 0]]⟩, ⟨"b.png", none⟩] ≠ [] := by
    intro hcon
    obtain ⟨p, hp, _⟩ := hbad
    rw [hcon] at hp
    simp at hp
  unfold createCocoFromMasks createFromSorted
  rw [if_neg hne, he]
  rfl

/-- C8 amended: if any image's pixel grid fails to decode, the run
aborts with an error (raised from the first pass over all images): no
document is produced and no other image's annotations are emitted —
there is no per-image skip-and-continue. -/
theorem c8_decode_failure_aborts (files : List PngFile)
    (hbad : ∃ p ∈ files, p.decoded = none) :
    ∃ e, createCocoFromMasks files = Except.error e := by
  have hbad2 : ∃ p ∈ sortByName files, p.decoded = none := by
    obtain ⟨p, hp, hpd⟩ := hbad
    refine ⟨p, ?_, hpd⟩
    simpa [sortByName] using hp
  obtain ⟨e, he⟩ := collectValues_error (sortByName files) hbad2
  have hne : sortByName files ≠ [] := by
    obtain ⟨p, hp, _⟩ := hbad2
    intro hcon
    rw [hcon] at hp
    simp at hp
  unfold createCocoFromMasks createFromSorted
  rw [if_neg hne, he]
  exact ⟨e, rfl⟩

/-- C8 amended witness: a single undecodable image. -/
theorem c8_decode_failure_aborts_witness :
    ∃ e, createCocoFromMasks
        [⟨"b.png", (none : Option (List (List Nat)))⟩] =
      Except.error e :=
  c8_decode_failure_aborts [⟨"b.png", none⟩]
    ⟨⟨"b.png", none⟩, List.mem_cons_self _ _, rfl⟩

theorem sortedByName_eq_of_perm :
    ∀ (l1 l2 : List PngFile), l1.Perm l2 → l1.Sorted fileLe →
      l2.Sorted fileLe → (l1.map PngFile.name).Nodup → l1 = l2 := by
  intro l1
  induction l1 with
  | nil =>
    intro l2 hp _ _ _
    exact (List.Perm.eq_nil hp.symm).symm
  | cons a t ih =>
    intro l2 hp hs1 hs2 hnd
    cases l2 with
    | nil => exact List.Perm.eq_nil hp
    | cons b t2 =>
      by_cases hab : a = b
      · subst hab
        have ht : t.Perm t2 := List.Perm.cons_inv hp
        have hnd2 : (t.map PngFile.name).Nodup := by
          rw [List.map_cons] at hnd
          exact (List.nodup_cons.mp hnd).2
        rw [ih t2 ht (List.sorted_cons.mp hs1).2 (List.sorted_cons.mp hs2).2
          hnd2]
      · exfalso
        have hab2 : a ∈ t2 := by
          have h1 : a ∈ b :: t2 := hp.subset (List.mem_cons_self a t)
          rcases List.mem_cons.mp h1 with h2 | h2
          · exact absurd h2 hab
          · exact h2
        have hbb : b ∈ t := by
          have h1 : b ∈ a :: t := hp.symm.subset (List.mem_cons_self b t2)
          rcases List.mem_cons.mp h1 with h2 | h2
          · exact absurd h2.symm hab
          · exact h2
        have h3 : fileLe a b := (List.sorted_cons.mp hs1).1 b hbb
        have h4 : fileLe b a := (List.sorted_cons.mp hs2).1 a hab2
        have h5 : a.name = b.name := le_antisymm h3 h4
        rw [List.map_cons] at hnd
        have h6 := (List.nodup_cons.mp hnd).1
        refine h6 ?_
        rw [h5]
        exact List.mem_map_of_mem PngFile.name hbb

/-- C9: the pipeline is a pure, deterministic function of the input set:
for any two listings of the same image files (a permutation; filenames
pairwise distinct, as directory entries are), the produced documents are
identical — same categories, image ids and order, and annotation ids,
contents and order.  (In particular two runs on the unchanged input give
byte-identical documents.) -/
theorem c9_deterministic (l1 l2 : List PngFile) (hperm : l1.Perm l2)
    (hnd : (l1.map PngFile.name).Nodup) :
    createCocoFromMasks l1 = createCocoFromMasks l2 := by
  unfold createCocoFromMasks
  congr 1
  refine sortedByName_eq_of_perm (sortByName l1) (sortByName l2) ?_ ?_ ?_ ?_
  · exact ((List.perm_insertionSort fileLe l1).trans hperm).trans
      (List.perm_insertionSort fileLe l2).symm
  · exact List.sorted_insertionSort fileLe l1
  · exact List.sorted_insertionSort fileLe l2
  · exact (((List.perm_insertionSort fileLe l1).map PngFile.name).nodup_iff).mpr
      hnd

/-- C9 witness: the same two files listed in both orders. -/
theorem c9_deterministic_witness :
    createCocoFromMasks
        [⟨"a.png", some [[0, 1], [1, 0]]⟩, ⟨"b.png", some [[1]]⟩] =
      createCocoFromMasks
        [⟨"b.png", some [[1]]⟩, ⟨"a.png", some [[0, 1], [1, 0]]⟩] :=
  c9_deterministic _ _ (List.Perm.swap _ _ _) (by decide)
